import Mathlib

/-!
Verification development for the `op` workflow supervisor.

The Go sources are shallowly embedded: byte strings become `List Char`
(each `Char` standing for one byte), Go maps become functions into
`Option`, and imperative loops become fuelled structural recursions whose
fuel is a proven upper bound on the iteration count, so that every
definition is executable and evaluates by kernel reduction.
-/

namespace Op

/-! ### Environment-marker substitution (`lib.expandEnv`)

`expandEnv` scans the input bytes left to right.  State of the Go loop:
`j` is the scan index, `i` is the index up to which bytes have been copied
to the output `r`, and `last` is the previously scanned byte.
-/

/-- Go slice `b[i:j]` (elements at indices `i .. j-1`). -/
def slice (b : List Char) (i j : Nat) : List Char :=
  (b.take j).drop i

/-- Go `r[len(r)-1] = c`: overwrite the final element.  The Go code indexes
into a nonempty slice there (the escaping backslash was just copied into
`r`); on `[]` this model returns `[c]`, a case that is unreachable from
`expandEnv`. -/
def setLast (r : List Char) (c : Char) : List Char :=
  r.dropLast ++ [c]

/-- The inner scanning loop of `expandEnv`: starting at index `j`, advance
while the byte is not a closing brace.  Result: the first index `≥ j`
holding a `}`; if there is none, an index `≥ b.length` (as in Go, where the
loop stops at `len(b)`). -/
def findClose (b : List Char) (j : Nat) : Nat :=
  j + ((b.drop j).takeWhile (fun c => c != '}')).length

/-- The main loop of `lib.expandEnv`.  `fuel` bounds the number of loop
iterations; since `j` strictly increases each iteration, `b.length` fuel is
enough, and the fuel-exhausted result coincides with the loop-exit result
`r ++ b[i:len(b)]`. -/
def expandEnvLoop (env : String → String) (b : List Char) :
    Nat → Nat → Nat → Char → List Char → List Char
  | 0, _, i, _, r => r ++ b.drop i
  | fuel + 1, j, i, last, r =>
    match b[j]? with
    | none => r ++ b.drop i
    | some c =>
      if c = '$' then
        -- copy from what is missing
        let r1 := r ++ slice b i j
        -- replace the previous backslash with a dollar if escaped
        if last = '\\' then
          expandEnvLoop env b fuel (j + 1) (j + 1) c (setLast r1 '$')
        else
          -- Go: iVar < len(b) && b[iVar] == '{'
          if b[j + 1]? = some '{' then
            let jVar := findClose b (j + 2)
            if jVar < b.length then
              -- b[jVar] = '}' here (proved below as findClose_closes), so
              -- the new `last` is the closing brace, as in Go

              expandEnvLoop env b fuel (jVar + 1) (jVar + 1) '}'
                (r1 ++ (env (String.mk (slice b (j + 2) jVar))).data)
            else
              -- no closing brace found: do nothing (but `i` is advanced)
              expandEnvLoop env b fuel (j + 1) (j + 1) c r1
          else
            expandEnvLoop env b fuel (j + 1) (j + 1) c r1
      else
        expandEnvLoop env b fuel (j + 1) i c r

/-- `lib.expandEnv`: replace `${NAME}` markers by `env NAME`
(`os.Getenv` returns `""` for unset names, so `env` is total). -/
def expandEnv (env : String → String) (b : List Char) : List Char :=
  expandEnvLoop env b b.length 0 0 (Char.ofNat 0) []

/-- No byte sequence `\$` occurs: no environment-marker escape. -/
def noEscape (b : List Char) : Prop :=
  ∀ j, j < b.length → b[j]? = some '\\' → b[j + 1]? ≠ some '$'

/-- No unescaped-or-not `${` with a closing `}` occurs: no position starts a
complete environment marker. -/
def noMarker (b : List Char) : Prop :=
  ∀ j, j < b.length → b[j]? = some '$' → b[j + 1]? = some '{' →
    b.length ≤ findClose b (j + 2)

instance (b : List Char) : Decidable (noEscape b) := by
  unfold noEscape; infer_instance

instance (b : List Char) : Decidable (noMarker b) := by
  unfold noMarker; infer_instance

/-! ### Manifest resolution (`lib.DecodeConfig`)

Go `map[string]string` becomes a lookup function.  The text/template
engine is external to the repository (the spec treats it as an external
collaborator), so rendering is abstracted as a total function
`render : String → SMap → String`; template errors are outside this pure
model. -/

abbrev SMap : Type := String → Option String

/-- `lib.merge`: copy the keys from `src` into `dst`; keys that already
exist in `dst` preserve their value. -/
def merge (dst src : SMap) : SMap := fun k =>
  match dst k with
  | some v => some v
  | none => src k

/-- `lib.interpretMap`: render every value of `s` as a template applied to
the data `m`. -/
def interpretMap (render : String → SMap → String) (s m : SMap) : SMap :=
  fun k => (s k).map (fun v => render v m)

/-- `lib.interpretSlice`. -/
def interpretSlice (render : String → SMap → String) (s : List String)
    (m : SMap) : List String :=
  s.map (fun v => render v m)

/-- `lib.Proc`.  The Go field `In` is called `inp` here (`in` is a
keyword); `Default`/`Namespace` of `Route` become `isDefault`/`nsp`
likewise. -/
structure Proc where
  var : SMap
  env : SMap
  name : String
  path : String
  dir : String
  args : List String
  inp : String
  out : String
  err : String

/-- `lib.Proc.interpret`: apply `var` to the other members.  `inp` is not
rendered, matching the Go code. -/
def Proc.interpret (render : String → SMap → String) (x : Proc) : Proc :=
  { x with
    env := interpretMap render x.env x.var
    args := interpretSlice render x.args x.var
    name := render x.name x.var
    path := render x.path x.var
    dir := render x.dir x.var
    out := render x.out x.var
    err := render x.err x.var }

/-- `lib.Route`. -/
structure Route where
  isDefault : Bool
  nsp : String
  var : SMap
  env : SMap
  procs : List Proc

/-- `lib.Manifest`.  The `routes` map is keyed by route name. -/
structure Manifest where
  nsp : String
  var : SMap
  env : SMap
  routes : String → Option Route

/-- The per-route body of the roll-out loop in `lib.DecodeConfig`:
merge `var` and `env` downward (inner values winning), render the route
`env` against the merged `var`, resolve the namespace, then roll the
scopes out to each proc and render it. -/
def rolloutRoute (render : String → SMap → String)
    (topNsp : String) (topVar topEnv : SMap) (route : Route) : Route :=
  let rvar := merge route.var topVar
  let renv := interpretMap render (merge route.env topEnv) rvar
  let ns0 := if route.nsp = "" then topNsp else route.nsp
  let ns1 := render ns0 rvar
  let ns2 := if ns1 = "" then "default" else ns1
  { route with
    var := rvar
    env := renv
    nsp := ns2
    procs := route.procs.map (fun proc =>
      Proc.interpret render
        { proc with
          var := merge proc.var rvar
          env := merge proc.env renv }) }

/-- `lib.DecodeConfig` after YAML decoding: render the top-level `env`
against the top-level `var`, then roll the scope declarations out from top
to bottom (bottom has priority).  Reading the file, `expandEnv`
preprocessing and YAML decoding happen before this pure part. -/
def decodeConfigRollout (render : String → SMap → String) (x : Manifest) :
    Manifest :=
  let xenv := interpretMap render x.env x.var
  { x with
    env := xenv
    routes := fun name =>
      (x.routes name).map (rolloutRoute render x.nsp x.var xenv) }

/-! ### Route supervision (`srv.route.run`, `srv.activeSet`) -/

/-- Result of one route execution in the model.  `panicked` marks the Go
runtime panic that `route.run` hits when `newProc` fails: the error path
formats `p.name` although `p` is the nil pointer returned alongside the
error. -/
inductive RunOutcome where
  | ok : RunOutcome
  | errored : String → RunOutcome
  | panicked : RunOutcome
deriving DecidableEq

/-- The name autofill of `srv.newRoute`: absent names become the proc's
zero-based index in its route. -/
def defaultName (i : Nat) (p : Proc) : String :=
  if p.name = "" then toString i else p.name

/-- The task list built by `srv.newRoute` (only the names matter to the
route loop; the stream wiring is external I/O). -/
def newRouteNames (cfgs : List Proc) : List String :=
  cfgs.mapIdx defaultName

/-- The proc loop of `srv.route.run` over the task names of the route.
`k` is the index of the current task, `label` the route's `active` label.
The oracles report, per index: whether the route context was observed
cancelled before starting the task, whether `newProc` failed, and whether
`proc.run` returned an error.  Returns the final label, the outcome, and
the indices of the tasks whose `run` was started. -/
def routeRunLoop (cancelBefore newProcFails runFails : Nat → Bool) :
    List String → Nat → String → List Nat → String × RunOutcome × List Nat
  | [], _, _, ran => ("finished", .ok, ran)
  | name :: restTasks, k, label, ran =>
    if cancelBefore k then ("canceled", .errored ("canceled"), ran)
    else if newProcFails k then
      -- Go: `return fmt.Errorf("%s setup error: %w", p.name, err)` with
      -- p = nil dereferences a nil pointer; the label is left untouched
      (label, .panicked, ran)
    else if runFails k then
      -- the label was set to the proc name before `run`, and ` error` is
      -- appended to it on failure
      (name ++ " error", .errored (name ++ " run error"), ran ++ [k])
    else
      routeRunLoop cancelBefore newProcFails runFails restTasks (k + 1) name
        (ran ++ [k])

/-- `srv.route.run`: register in the active registry (`alreadyActive`
reports whether `activeSet` failed with `already exists`), then run the
tasks in order.  The route's `active` label starts out empty. -/
def routeRun (alreadyActive : Bool)
    (cancelBefore newProcFails runFails : Nat → Bool)
    (names : List String) : String × RunOutcome × List Nat :=
  if alreadyActive then ("", .errored ("already exists"), [])
  else routeRunLoop cancelBefore newProcFails runFails names 0 "" []

/-- The active-routes registry `srv.active`: namespace → route name →
route (routes identified by an abstract id). -/
abbrev Registry : Type := String → Option (String → Option Nat)

/-- `srv.activeGet`. -/
def activeGet (reg : Registry) (nsp name : String) : Option Nat :=
  match reg nsp with
  | none => none
  | some ns => ns name

/-- `srv.activeSet`: create the namespace sub-map on demand, fail with
`already exists` when the name is taken, otherwise insert.  The pair
returns the registry state after the call together with the error,
mirroring that the Go map is left untouched on failure. -/
def activeSet (reg : Registry) (nsp name : String) (id : Nat) :
    Registry × Option String :=
  let ns : String → Option Nat :=
    match reg nsp with
    | some ns => ns
    | none => fun _ => none
  match ns name with
  | some _ => (reg, some ("already exists"))
  | none =>
    (fun k =>
      if k = nsp then some (fun k2 => if k2 = name then some id else ns k2)
      else reg k,
     none)

/-! ### Command execution (`srv.command.executeRun`) -/

/-- `srv.command.executeRun`, restricted to its pure route-selection part:
the first component is the spawned route table (or the selection error),
the second the caller-visible state of `x.Config` after the call.  In Go,
`manifest := x.Config` aliases the caller's map, so the default-filtering
branch (`delete(manifest, name)`) mutates the shared map in place, while
the named-route branches build a fresh single-entry map and leave the
caller's map untouched. -/
def executeRun (config : String → Option Route) (routeArg procArg : String) :
    Except String (String → Option Route) × (String → Option Route) :=
  if routeArg = "" then
    -- if no arguments, filter out non default routes
    let filtered : String → Option Route := fun n =>
      match config n with
      | some rt => if rt.isDefault then some rt else none
      | none => none
    (.ok filtered, filtered)
  else
    match config routeArg with
    | none => (.error ("route not defined"), config)
    | some rt =>
      if procArg = "" then
        (.ok (fun n => if n = routeArg then some rt else none), config)
      else
        -- linear scan for the first proc whose (declared) name matches
        let i := rt.procs.findIdx (fun p => p.name == procArg)
        if h : i < rt.procs.length then
          (.ok (fun n =>
            if n = routeArg then some { rt with procs := [rt.procs[i]] }
            else none),
           config)
        else
          (.error ("process not defined"), config)

/-! ### Line-prefixing writer (`srv.prefixer`) -/

/-- `srv.prefixer`: `buf` holds the prefix (of length `n`) followed by the
bytes buffered since the last flush. -/
structure Prefixer where
  buf : List Char
  n : Nat

/-- `srv.newPrefixer`. -/
def newPrefixer (pre : List Char) : Prefixer :=
  { buf := pre, n := pre.length }

/-- `srv.prefixer.Write`: append the written bytes and flush exactly when
the buffer now ends in a newline, truncating the buffer back to the
prefix.  The second component is what this call writes to the
destination.  (Go indexes `buf[len(buf)-1]` and would panic were the
buffer empty; with the nonempty prefixes the server builds, the buffer is
never empty, and the model buffers in that unreachable case.) -/
def prefixerWrite (x : Prefixer) (b : List Char) : Prefixer × List Char :=
  let buf := x.buf ++ b
  if buf.getLast? = some '\n' then
    ({ buf := buf.take x.n, n := x.n }, buf)
  else
    ({ buf := buf, n := x.n }, [])

/-! ### Client-id pool (`srv.getId`, `srv.deleteId`) -/

/-- The scan loop of `srv.getId`: starting at the cursor `idNext`, advance
while the id is active.  `idNext` is a Go `byte`, so incrementing wraps
modulo 256.  When all 256 ids are active the Go loop never terminates;
the model returns `none` then, by giving the loop 256 iterations of fuel
(enough to visit every id once). -/
def getIdLoop (act : Nat → Bool) : Nat → Nat → Option Nat
  | _, 0 => none
  | cur, fuel + 1 =>
    if act cur then getIdLoop act ((cur + 1) % 256) fuel else some cur

/-- `srv.getId`: scan from the cursor and mark the found id active. -/
def getId (act : Nat → Bool) (cur : Nat) : Option (Nat × (Nat → Bool)) :=
  (getIdLoop act cur 256).map
    (fun id => (id, fun k => if k = id then true else act k))

/-- `srv.deleteId`. -/
def deleteId (act : Nat → Bool) (id : Nat) : Nat → Bool :=
  fun k => if k = id then false else act k

/-! ### Concrete data used by the witnesses -/

/-- The identity renderer: a template without directives renders to
itself. -/
def sampleRender : String → SMap → String := fun s _ => s

def sampleProc : Proc :=
  { var := fun _ => none
    env := fun _ => none
    name := "x"
    path := "p"
    dir := ""
    args := []
    inp := ""
    out := ""
    err := "" }

def sampleRoute : Route :=
  { isDefault := true
    nsp := ""
    var := fun _ => none
    env := fun _ => none
    procs := [sampleProc] }

def sampleManifest : Manifest :=
  { nsp := ""
    var := fun k => if k = "V" then some ("mv") else none
    env := fun k => if k = "E" then some ("me") else none
    routes := fun n => if n = "r" then some sampleRoute else none }

/-- The resolved form of `sampleRoute` under `decodeConfigRollout`. -/
def sampleResolvedRoute : Route :=
  rolloutRoute sampleRender sampleManifest.nsp sampleManifest.var
    (interpretMap sampleRender sampleManifest.env sampleManifest.var)
    sampleRoute

/-- The resolved form of `sampleProc` inside `sampleResolvedRoute`. -/
def sampleResolvedProc : Proc :=
  Proc.interpret sampleRender
    { sampleProc with
      var := merge sampleProc.var (merge sampleRoute.var sampleManifest.var)
      env := merge sampleProc.env (interpretMap sampleRender
        (merge sampleRoute.env
          (interpretMap sampleRender sampleManifest.env sampleManifest.var))
        (merge sampleRoute.var sampleManifest.var)) }

/-- A proc with no declared name (its run-time name defaults to its
index). -/
def unnamedProc : Proc :=
  { sampleProc with name := "" }

def unnamedRoute : Route :=
  { isDefault := false
    nsp := ""
    var := fun _ => none
    env := fun _ => none
    procs := [unnamedProc] }

def unnamedConfig : String → Option Route :=
  fun n => if n = "r" then some unnamedRoute else none

def procY : Proc :=
  { sampleProc with name := "y" }

def namedRoute : Route :=
  { isDefault := false
    nsp := ""
    var := fun _ => none
    env := fun _ => none
    procs := [sampleProc, procY] }

def namedConfig : String → Option Route :=
  fun n => if n = "r" then some namedRoute else none

theorem slice_cons (c : Char) (b : List Char) (i j : Nat) :
    slice (c :: b) (i + 1) (j + 1) = slice b i j := by
  simp [slice, List.take_succ_cons, List.drop_succ_cons]

theorem slice_zero (b : List Char) (i : Nat) : slice b i i = [] := by
  refine List.drop_eq_nil_of_le ?_
  exact (List.length_take_le i b).trans (Nat.le_refl i)

theorem slice_succ_right (b : List Char) (i j : Nat) (c : Char)
    (hij : i ≤ j) (hj : b[j]? = some c) :
    slice b i (j + 1) = slice b i j ++ [c] := by
  unfold slice
  rw [List.take_succ, hj]
  have h' : i ≤ (List.take j b).length := by
    simp only [List.length_take]
    have := (List.getElem?_eq_some.mp hj).1
    omega
  rw [List.drop_append_of_le_length h']
  rfl

theorem findClose_ge (b : List Char) (j : Nat) : j ≤ findClose b j :=
  Nat.le_add_right _ _

theorem findClose_cons (c : Char) (b : List Char) (j : Nat) :
    findClose (c :: b) (j + 1) = findClose b j + 1 := by
  simp [findClose, List.drop_succ_cons]
  omega

theorem getElem?_takeWhile_length (p : Char → Bool) :
    ∀ l : List Char, (l.takeWhile p).length < l.length →
      ∃ c, l[(l.takeWhile p).length]? = some c ∧ p c = false := by
  intro l
  induction l with
  | nil => intro h; simp at h
  | cons x xs ih =>
    intro h
    by_cases hp : p x = true
    · rw [List.takeWhile_cons, if_pos hp] at h ⊢
      simp only [List.length_cons, List.getElem?_cons_succ]
      exact ih (by simpa using h)
    · rw [List.takeWhile_cons, if_neg hp]
      simp only [List.length_nil, List.getElem?_cons_zero]
      exact ⟨x, rfl, by simpa using hp⟩

/-- When `findClose` returns an in-range index, the byte there is the
closing brace — justifying that the loop resumes with `last = '}'`. -/
theorem findClose_closes (b : List Char) (j : Nat)
    (h : findClose b j < b.length) : b[findClose b j]? = some '}' := by
  unfold findClose at h ⊢
  rw [← List.getElem?_drop]
  have hlt : ((b.drop j).takeWhile (fun c => c != '}')).length
      < (b.drop j).length := by
    rw [List.length_drop]; omega
  obtain ⟨c, hc, hpc⟩ :=
    getElem?_takeWhile_length (fun c => c != '}') (b.drop j) hlt
  rw [hc]
  have hcc : c = '}' := by simpa using hpc
  rw [hcc]

theorem expandEnvLoop_exit (env : String → String) (b : List Char)
    (f j i : Nat) (last : Char) (r : List Char) (h : b.length ≤ j) :
    expandEnvLoop env b f j i last r = r ++ b.drop i := by
  cases f with
  | zero => rfl
  | succ f => simp [expandEnvLoop, List.getElem?_eq_none h]

theorem expandEnvLoop_fuel (env : String → String) (b : List Char) :
    ∀ f₁ f₂ j i : Nat, ∀ last : Char, ∀ r : List Char,
      b.length ≤ j + f₁ → b.length ≤ j + f₂ →
      expandEnvLoop env b f₁ j i last r = expandEnvLoop env b f₂ j i last r := by
  intro f₁
  induction f₁ with
  | zero =>
    intro f₂ j i last r h₁ h₂
    rw [expandEnvLoop_exit env b f₂ j i last r (by omega)]
    rfl
  | succ f ih =>
    intro f₂ j i last r h₁ h₂
    cases f₂ with
    | zero =>
      rw [expandEnvLoop_exit env b (f + 1) j i last r (by omega)]
      rfl
    | succ f₂ =>
      have hge : j + 2 ≤ findClose b (j + 2) := findClose_ge b (j + 2)
      simp only [expandEnvLoop]
      split
      · rfl
      · rename_i c h
        split
        · split
          · exact ih f₂ (j + 1) (j + 1) c _ (by omega) (by omega)
          · split
            · split
              · exact ih f₂ (findClose b (j + 2) + 1) _ '}' _ (by omega) (by omega)
              · exact ih f₂ (j + 1) (j + 1) c _ (by omega) (by omega)
            · exact ih f₂ (j + 1) (j + 1) c _ (by omega) (by omega)
        · exact ih f₂ (j + 1) i c r (by omega) (by omega)

theorem expandEnvLoop_cons (env : String → String) (c : Char) (b : List Char)
    (f : Nat) :
    ∀ j i : Nat, ∀ last : Char, ∀ r : List Char,
      expandEnvLoop env (c :: b) f (j + 1) (i + 1) last r
        = expandEnvLoop env b f j i last r := by
  induction f with
  | zero =>
    intro j i last r
    simp [expandEnvLoop, List.drop_succ_cons]
  | succ f ih =>
    intro j i last r
    simp only [expandEnvLoop, List.getElem?_cons_succ, slice_cons,
      show ∀ k : Nat, k + 1 + 2 = k + 2 + 1 from fun k => by omega,
      findClose_cons, List.length_cons, Nat.add_lt_add_iff_right,
      List.drop_succ_cons]
    split
    · rfl
    · split
      · split
        · exact ih _ _ _ _
        · split
          · split
            · exact ih _ _ _ _
            · exact ih _ _ _ _
          · exact ih _ _ _ _
      · exact ih _ _ _ _

theorem expandEnvLoop_append (env : String → String) (rest : List Char) :
    ∀ pre : List Char, ∀ f : Nat, ∀ last : Char, ∀ r : List Char,
      expandEnvLoop env (pre ++ rest) f pre.length pre.length last r
        = expandEnvLoop env rest f 0 0 last r := by
  intro pre
  induction pre with
  | nil => intro f last r; rfl
  | cons c pre ih =>
    intro f last r
    exact (expandEnvLoop_cons env c (pre ++ rest) f pre.length pre.length
      last r).trans (ih f last r)

theorem expandEnvLoop_swap (env : String → String) (b : List Char)
    (f j i : Nat) (last₁ last₂ : Char) (r : List Char)
    (h₁ : last₁ ≠ '\\') (h₂ : last₂ ≠ '\\') :
    expandEnvLoop env b f j i last₁ r = expandEnvLoop env b f j i last₂ r := by
  cases f with
  | zero => rfl
  | succ f => simp only [expandEnvLoop, if_neg h₁, if_neg h₂]

theorem expandEnvLoop_factor (env : String → String) (b : List Char) :
    ∀ f : Nat, ∀ j i : Nat, ∀ last : Char, ∀ r : List Char,
      i ≤ j → (i = j → last ≠ '\\') →
      expandEnvLoop env b f j i last r
        = r ++ expandEnvLoop env b f j i last [] := by
  intro f
  induction f with
  | zero =>
    intro j i last r hij hlast
    simp [expandEnvLoop]
  | succ f ih =>
    intro j i last r hij hlast
    simp only [expandEnvLoop]
    split
    · simp
    · rename_i c h
      split
      · rename_i hc
        have hc' : c ≠ '\\' := by rw [hc]; decide
        split
        · rename_i hl
          -- escaped dollar: the pending copy `slice b i j` is nonempty and
          -- absorbs the overwrite of its final backslash
          have hij' : i < j := by
            rcases Nat.lt_or_ge i j with h' | h'
            · exact h'
            · exact absurd hl (hlast (by omega))
          have hjl : j < b.length := (List.getElem?_eq_some.mp h).1
          have hs : slice b i j ≠ [] := by
            unfold slice
            intro hnil
            rw [List.drop_eq_nil_iff, List.length_take] at hnil
            omega
          rw [ih (j + 1) (j + 1) c _ (Nat.le_refl _) (fun _ => hc'),
            ih (j + 1) (j + 1) c (setLast ([] ++ slice b i j) '$')
              (Nat.le_refl _) (fun _ => hc')]
          simp [setLast, List.dropLast_append_of_ne_nil _ hs]
        · split
          · split
            · rw [ih (findClose b (j + 2) + 1) (findClose b (j + 2) + 1) '}' _
                  (Nat.le_refl _) (fun _ => by decide),
                ih (findClose b (j + 2) + 1) (findClose b (j + 2) + 1) '}'
                  (([] ++ slice b i j)
                    ++ (env (String.mk (slice b (j + 2) (findClose b (j + 2))))).data)
                  (Nat.le_refl _) (fun _ => by decide)]
              simp
            · rw [ih (j + 1) (j + 1) c _ (Nat.le_refl _) (fun _ => hc'),
                ih (j + 1) (j + 1) c ([] ++ slice b i j)
                  (Nat.le_refl _) (fun _ => hc')]
              simp
          · rw [ih (j + 1) (j + 1) c _ (Nat.le_refl _) (fun _ => hc'),
              ih (j + 1) (j + 1) c ([] ++ slice b i j)
                (Nat.le_refl _) (fun _ => hc')]
            simp
      · exact ih (j + 1) i c r (by omega) (fun he => absurd he (by omega))

/-- On input without escapes and without complete markers, the loop copies
every byte except the `$` bytes themselves: each `$` is silently dropped
because `i` is advanced past it in every branch of the scan. -/
theorem expandEnvLoop_filter (env : String → String) (b : List Char)
    (hE : noEscape b) (hM : noMarker b) :
    ∀ f j i : Nat, ∀ last : Char, ∀ r : List Char,
      b.length ≤ j + f → i ≤ j →
      (last = '\\' → b[j]? ≠ some '$') →
      expandEnvLoop env b f j i last r
        = r ++ slice b i j ++ (b.drop j).filter (fun c => c != '$') := by
  intro f
  induction f with
  | zero =>
    intro j i last r hf hij hlast
    have hj : b.length ≤ j := by omega
    simp [expandEnvLoop, slice, List.take_of_length_le hj,
      List.drop_eq_nil_of_le hj]
  | succ f ih =>
    intro j i last r hf hij hlast
    simp only [expandEnvLoop]
    split
    · rename_i h
      have hj : b.length ≤ j := by
        by_contra hlt
        simp [List.getElem?_eq_none_iff] at h
        omega
      simp [slice, List.take_of_length_le hj, List.drop_eq_nil_of_le hj]
    · rename_i c h
      have hjl : j < b.length := (List.getElem?_eq_some.mp h).1
      have hdropj : b.drop j = c :: b.drop (j + 1) := by
        rw [List.drop_eq_getElem_cons hjl]
        have : b[j] = c := by
          have := (List.getElem?_eq_some.mp h).2
          simpa using this
        rw [this]
      split
      · rename_i hc
        -- a dollar: never escaped (entry hypothesis), never a completed
        -- marker (noMarker), so both paths skip it and advance `i` past it
        have hlast' : last ≠ '\\' := by
          intro hl
          exact absurd h (by simpa [hc] using hlast hl)
        split
        · rename_i hl
          exact absurd hl hlast'
        · have step :
              expandEnvLoop env b f (j + 1) (j + 1) c (r ++ slice b i j)
                = r ++ slice b i j
                    ++ (b.drop (j + 1)).filter (fun c => c != '$') := by
            have := ih (j + 1) (j + 1) c (r ++ slice b i j) (by omega)
              (Nat.le_refl _)
              (fun he => by rw [hc] at he; exact absurd he (by decide))
            simpa [slice_zero] using this
          have hfilter :
              (b.drop j).filter (fun c => c != '$')
                = (b.drop (j + 1)).filter (fun c => c != '$') := by
            rw [hdropj, hc]
            simp
          split
          · rename_i hb2
            split
            · rename_i hv
              exact absurd hv (by simpa using hM j hjl (hc ▸ h) hb2)
            · rw [step, hfilter]
          · rw [step, hfilter]
      · rename_i hc
        -- an ordinary byte: copied verbatim (it stays inside the pending
        -- slice), and kept by the filter
        have hstep := ih (j + 1) i c r (by omega) (by omega)
          (fun hcl => hE j hjl (hcl ▸ h))
        rw [hstep, slice_succ_right b i j c hij h, hdropj]
        have : (c != '$') = true := by simpa using hc
        simp [List.filter_cons, this]

/-- `expandEnv` on escape-free, marker-free text: every byte is kept except
the `$` bytes, which are dropped. -/
theorem expandEnv_filter (env : String → String) (b : List Char)
    (hE : noEscape b) (hM : noMarker b) :
    expandEnv env b = b.filter (fun c => c != '$') := by
  unfold expandEnv
  rw [expandEnvLoop_filter env b hE hM b.length 0 0 (Char.ofNat 0) []
    (by omega) (Nat.le_refl _) (fun hl => absurd hl (by decide))]
  simp [slice_zero]

theorem takeWhile_until_brace (name rest : List Char) (hname : '}' ∉ name) :
    (name ++ '}' :: rest).takeWhile (fun c => c != '}') = name := by
  induction name with
  | nil => simp [List.takeWhile_cons]
  | cons a nm ih =>
    simp only [List.mem_cons, not_or] at hname
    obtain ⟨ha, hnm⟩ := hname
    have ha' : a ≠ '}' := fun h => ha h.symm
    simp [List.takeWhile_cons, ha', ih hnm]

theorem findClose_marker (name rest : List Char) (hname : '}' ∉ name) :
    findClose ('$' :: '{' :: (name ++ '}' :: rest)) 2 = name.length + 2 := by
  unfold findClose
  have hdrop : ('$' :: '{' :: (name ++ '}' :: rest)).drop 2
      = name ++ '}' :: rest := rfl
  rw [hdrop, takeWhile_until_brace name rest hname]
  omega

theorem slice_marker (name rest : List Char) :
    slice ('$' :: '{' :: (name ++ '}' :: rest)) 2 (name.length + 2) = name := by
  rw [slice_cons, slice_cons]
  simp [slice, List.take_left]

/-- A complete marker `${NAME}` at the head of the input is substituted by
the environment value of `NAME`, and scanning resumes after the closing
brace. -/
theorem expandEnv_marker (env : String → String) (name rest : List Char)
    (hname : '}' ∉ name) :
    expandEnv env ('$' :: '{' :: (name ++ '}' :: rest))
      = (env (String.mk name)).data ++ expandEnv env rest := by
  unfold expandEnv
  have hlen : ('$' :: '{' :: (name ++ '}' :: rest)).length
      = (name.length + rest.length + 2) + 1 := by simp; omega
  rw [hlen, expandEnvLoop]
  simp only [List.getElem?_cons_zero, List.getElem?_cons_succ, Nat.zero_add,
    if_true]
  rw [if_neg (show ¬(Char.ofNat 0 = '\\') by decide)]
  rw [findClose_marker name rest hname]
  rw [if_pos (show name.length + 2
      < ('$' :: '{' :: (name ++ '}' :: rest)).length by simp)]
  rw [slice_marker name rest]
  simp only [slice_zero, List.nil_append]
  have hpre : ('$' :: '{' :: (name ++ '}' :: rest))
      = ('$' :: '{' :: name ++ ['}']) ++ rest := by simp
  have hplen : name.length + 2 + 1 = ('$' :: '{' :: name ++ ['}']).length := by
    simp
  rw [hpre, hplen,
    expandEnvLoop_append env rest ('$' :: '{' :: name ++ ['}'])
      (name.length + rest.length + 2) '}' _,
    expandEnvLoop_factor env rest (name.length + rest.length + 2) 0 0 '}' _
      (Nat.le_refl 0) (fun _ => by decide),
    expandEnvLoop_swap env rest (name.length + rest.length + 2) 0 0 '}'
      (Char.ofNat 0) [] (by decide) (by decide),
    expandEnvLoop_fuel env rest (name.length + rest.length + 2) rest.length
      0 0 (Char.ofNat 0) [] (by omega) (by omega)]

/-- An escaped dollar `\$` at the head of the input yields a literal `$`
with the backslash dropped, and scanning resumes after the dollar. -/
theorem expandEnv_escape (env : String → String) (rest : List Char) :
    expandEnv env ('\\' :: '$' :: rest) = '$' :: expandEnv env rest := by
  unfold expandEnv
  have hlen : ('\\' :: '$' :: rest).length = (rest.length + 1) + 1 := by simp
  rw [hlen, expandEnvLoop]
  simp only [List.getElem?_cons_zero, Nat.zero_add]
  rw [if_neg (show ¬('\\' = '$') by decide)]
  rw [expandEnvLoop]
  simp only [List.getElem?_cons_succ, List.getElem?_cons_zero, if_true]
  have hset : setLast ([] ++ slice ('\\' :: '$' :: rest) 0 1) '$'
      = ('$' :: []) := rfl
  rw [hset]
  rw [show (1 + 1 : Nat) = (('\\' : Char) :: '$' :: []).length from rfl]
  rw [show ('\\' :: '$' :: rest) = (('\\' : Char) :: '$' :: []) ++ rest
      from rfl]
  rw [expandEnvLoop_append env rest (('\\' : Char) :: '$' :: [])
      rest.length '$' _,
    expandEnvLoop_factor env rest rest.length 0 0 '$' _
      (Nat.le_refl 0) (fun _ => by decide),
    expandEnvLoop_swap env rest rest.length 0 0 '$'
      (Char.ofNat 0) [] (by decide) (by decide)]
  rfl

/-- Text without any `$` byte is left unchanged by `expandEnv`. -/
theorem expandEnv_of_not_mem (env : String → String) (b : List Char)
    (hb : '$' ∉ b) : expandEnv env b = b := by
  have hE : noEscape b := by
    intro j _ _ hsome
    exact hb (List.getElem?_mem hsome)
  have hM : noMarker b := by
    intro j _ hsome _
    exact absurd (List.getElem?_mem hsome) hb
  rw [expandEnv_filter env b hE hM]
  refine List.filter_eq_self.mpr ?_
  intro a ha
  have : a ≠ '$' := fun he => hb (he ▸ ha)
  simpa using this

/-- C1: the claim states that a `$` not immediately followed by `{`, and a
`${` with no closing `}`, are copied to the output unchanged.  The code
violates this: in both cases the copy index is set to `j + 1`
unconditionally, so the `$` byte itself is dropped from the output
(`$a` becomes `a`, `${x` becomes `{x`), contradicting the code's own
`do nothing if not found` comment and the spec. -/
theorem c1_dollar_dropped :
    expandEnv (fun _ => "") ('$' :: 'a' :: []) = 'a' :: []
    ∧ expandEnv (fun _ => "") ('$' :: '{' :: 'x' :: []) = '{' :: 'x' :: []
    ∧ expandEnv (fun _ => "") ('$' :: 'a' :: []) ≠ '$' :: 'a' :: []
    ∧ expandEnv (fun _ => "") ('$' :: '{' :: 'x' :: [])
        ≠ '$' :: '{' :: 'x' :: [] := by
  decide

/-- C3 counterexample: the input `\$` contains no `${…}` marker at all
(`noMarker` holds), yet expansion is not idempotent on it: the first pass
turns the escape into a bare `$`, which the second pass drops. -/
theorem c3_counterexample :
    noMarker ('\\' :: '$' :: [])
    ∧ expandEnv (fun _ => "") (expandEnv (fun _ => "") ('\\' :: '$' :: []))
        ≠ expandEnv (fun _ => "") ('\\' :: '$' :: []) := by
  decide

/-- C3 (amended): env-marker expansion is idempotent on text containing no
complete `${…}` marker and no backslash-escaped `$`: one pass then only
drops the `$` bytes, and a second pass leaves `$`-free text unchanged. -/
theorem c3_idempotent_amended (env : String → String) (b : List Char)
    (hE : noEscape b) (hM : noMarker b) :
    expandEnv env (expandEnv env b) = expandEnv env b := by
  rw [expandEnv_filter env b hE hM]
  have hnd : '$' ∉ b.filter (fun c => c != '$') := by
    intro hm
    have h2 := List.mem_filter.mp hm
    simp at h2
  exact expandEnv_of_not_mem env _ hnd

/-- C3 witness: `c3_idempotent_amended` applied at a concrete input
satisfying both hypotheses. -/
theorem c3_idempotent_amended_witness :
    noEscape ('a' :: '$' :: 'b' :: [])
    ∧ noMarker ('a' :: '$' :: 'b' :: [])
    ∧ expandEnv (fun _ => "")
        (expandEnv (fun _ => "") ('a' :: '$' :: 'b' :: []))
      = expandEnv (fun _ => "") ('a' :: '$' :: 'b' :: []) :=
  ⟨by decide, by decide,
    c3_idempotent_amended (fun _ => "") ('a' :: '$' :: 'b' :: [])
      (by decide) (by decide)⟩

/-- C9: a complete `${NAME}` marker is replaced by the environment value of
`NAME` (the environment is the total `os.Getenv`, returning `""` for unset
names); a backslash-escaped `\$` yields a literal `$` with the backslash
dropped and the following bytes not treated as a marker; and concretely
`${HOME}/\${LIT}` with `HOME=/h` expands to `/h/${LIT}`. -/
theorem c9_marker_substitution (env : String → String)
    (name rest : List Char) (hname : '}' ∉ name) :
    expandEnv env ('$' :: '{' :: (name ++ '}' :: rest))
        = (env (String.mk name)).data ++ expandEnv env rest
    ∧ expandEnv env ('\\' :: '$' :: rest) = '$' :: expandEnv env rest
    ∧ expandEnv (fun n => if n = "HOME" then "/h" else "")
        ("${HOME}/\\${LIT}".data)
      = "/h/${LIT}".data :=
  ⟨expandEnv_marker env name rest hname, expandEnv_escape env rest, by decide⟩

/-- C9 witness: `c9_marker_substitution` applied at a concrete marker. -/
theorem c9_marker_substitution_witness :
    ('}' ∉ ('H' :: ([] : List Char)))
    ∧ (expandEnv (fun _ => "v") ('$' :: '{' :: (('H' :: []) ++ '}' :: 'z' :: []))
        = ((fun _ => "v") (String.mk ('H' :: [])) : String).data
            ++ expandEnv (fun _ => "v") ('z' :: [])
      ∧ expandEnv (fun _ => "v") ('\\' :: '$' :: 'z' :: [])
          = '$' :: expandEnv (fun _ => "v") ('z' :: [])
      ∧ expandEnv (fun n => if n = "HOME" then "/h" else "")
          ("${HOME}/\\${LIT}".data)
        = "/h/${LIT}".data) :=
  ⟨by decide,
    c9_marker_substitution (fun _ => "v") ('H' :: []) ('z' :: []) (by decide)⟩

/-- C2: the claim states that on `newProc` construction failure the active
label is set to `"<procName> error"` and `run` returns an error.  The code
instead dereferences the nil proc pointer returned by `newProc` while
formatting that error (`p.name` with `p = nil`), a runtime panic, and the
label is never touched: on a single-proc route whose runner construction
fails, the route terminates with the label still empty — neither
`finished`, nor `canceled`, nor ending in `" error"`. -/
theorem c2_nil_proc_panic :
    routeRun false (fun _ => false) (fun _ => true) (fun _ => false)
        ("a" :: []) = ("", .panicked, [])
    ∧ ("" : String) ≠ "finished"
    ∧ ("" : String) ≠ "canceled"
    ∧ (" error".data.isSuffixOf "".data) = false := by
  decide

theorem merge_eq_left (dst src : SMap) (k v : String) (h : dst k = some v) :
    merge dst src k = some v := by
  simp [merge, h]

theorem merge_eq_right (dst src : SMap) (k : String) (h : dst k = none) :
    merge dst src k = src k := by
  simp [merge, h]

theorem merge_isSome_right (dst src : SMap) (k : String)
    (h : (src k).isSome) : ((merge dst src) k).isSome := by
  unfold merge
  rcases hd : dst k with _ | v <;> simp [hd, h]

theorem merge_isSome_left (dst src : SMap) (k : String)
    (h : (dst k).isSome) : ((merge dst src) k).isSome := by
  unfold merge
  rcases hd : dst k with _ | v
  · rw [hd] at h; exact absurd h (by simp)
  · simp

theorem interpretMap_isSome (render : String → SMap → String) (s m : SMap)
    (k : String) : ((interpretMap render s m) k).isSome = (s k).isSome := by
  simp [interpretMap, Option.isSome_map']

theorem interpretMap_eq_some (render : String → SMap → String) (s m : SMap)
    (k v : String) (h : s k = some v) :
    interpretMap render s m k = some (render v m) := by
  simp [interpretMap, h]

/-- C4: scope roll-out.  For a manifest resolved by `decodeConfigRollout`,
with `rr` the resolved route stored under `nm` and `pp` its `i`-th
resolved proc (`r0`, `p0` the declared ones): the resolved proc `env`
contains every key of the resolved route `env`, which contains every key
of the manifest `env`; on a key conflict the innermost declared value wins
(proc over route over manifest), each winner being rendered once per scope
it traverses; and the same holds for `var` (never rendered). -/
theorem c4_scope_rollout (render : String → SMap → String) (m : Manifest)
    (nm : String) (r0 rr : Route) (i : Nat) (p0 pp : Proc) (k v : String)
    (hr : m.routes nm = some r0)
    (hrr : (decodeConfigRollout render m).routes nm = some rr)
    (hp0 : r0.procs[i]? = some p0)
    (hpp : rr.procs[i]? = some pp) :
    ((m.env k).isSome → (rr.env k).isSome)
    ∧ ((rr.env k).isSome → (pp.env k).isSome)
    ∧ ((m.var k).isSome → (rr.var k).isSome)
    ∧ ((rr.var k).isSome → (pp.var k).isSome)
    ∧ (p0.env k = some v → pp.env k = some (render v pp.var))
    ∧ (p0.env k = none → r0.env k = some v →
        pp.env k = some (render (render v rr.var) pp.var))
    ∧ (p0.env k = none → r0.env k = none → m.env k = some v →
        pp.env k = some (render (render (render v m.var) rr.var) pp.var))
    ∧ (p0.var k = some v → pp.var k = some v)
    ∧ (p0.var k = none → r0.var k = some v → pp.var k = some v)
    ∧ (p0.var k = none → r0.var k = none → m.var k = some v →
        pp.var k = some v) := by
  have hrr' : rr = rolloutRoute render m.nsp m.var
      (interpretMap render m.env m.var) r0 := by
    have h2 : (decodeConfigRollout render m).routes nm
        = some (rolloutRoute render m.nsp m.var
            (interpretMap render m.env m.var) r0) := by
      simp [decodeConfigRollout, hr]
    exact Option.some_inj.mp (hrr.symm.trans h2)
  subst hrr'
  have hpp' : pp = Proc.interpret render
      { p0 with
        var := merge p0.var (merge r0.var m.var)
        env := merge p0.env (interpretMap render
          (merge r0.env (interpretMap render m.env m.var))
          (merge r0.var m.var)) } := by
    have h3 : (rolloutRoute render m.nsp m.var
        (interpretMap render m.env m.var) r0).procs[i]?
        = some (Proc.interpret render
            { p0 with
              var := merge p0.var (merge r0.var m.var)
              env := merge p0.env (interpretMap render
                (merge r0.env (interpretMap render m.env m.var))
                (merge r0.var m.var)) }) := by
      simp [rolloutRoute, List.getElem?_map, hp0]
    exact Option.some_inj.mp (hpp.symm.trans h3)
  subst hpp'
  refine ⟨?_, ?_, ?_, ?_, ?_, ?_, ?_, ?_, ?_, ?_⟩
  · intro h
    simp only [rolloutRoute]
    rw [interpretMap_isSome]
    refine merge_isSome_right _ _ _ ?_
    rw [interpretMap_isSome]
    exact h
  · intro h
    simp only [rolloutRoute] at h
    simp only [Proc.interpret]
    rw [interpretMap_isSome]
    exact merge_isSome_right _ _ _ h
  · intro h
    simp only [rolloutRoute]
    exact merge_isSome_right _ _ _ h
  · intro h
    simp only [rolloutRoute] at h
    simp only [Proc.interpret]
    exact merge_isSome_right _ _ _ h
  · intro h
    simp only [Proc.interpret]
    rw [interpretMap_eq_some _ _ _ _ _ (merge_eq_left _ _ _ _ h)]
  · intro h1 h2
    simp only [Proc.interpret, rolloutRoute]
    have hren : interpretMap render
        (merge r0.env (interpretMap render m.env m.var))
        (merge r0.var m.var) k
          = some (render v (merge r0.var m.var)) :=
      interpretMap_eq_some _ _ _ _ _ (merge_eq_left _ _ _ _ h2)
    rw [interpretMap_eq_some _ _ _ _ _
      ((merge_eq_right _ _ _ h1).trans hren)]
  · intro h1 h2 h3
    simp only [Proc.interpret, rolloutRoute]
    have hx : interpretMap render m.env m.var k = some (render v m.var) :=
      interpretMap_eq_some _ _ _ _ _ h3
    have hren : interpretMap render
        (merge r0.env (interpretMap render m.env m.var))
        (merge r0.var m.var) k
          = some (render (render v m.var) (merge r0.var m.var)) :=
      interpretMap_eq_some _ _ _ _ _ ((merge_eq_right _ _ _ h2).trans hx)
    rw [interpretMap_eq_some _ _ _ _ _
      ((merge_eq_right _ _ _ h1).trans hren)]
  · intro h
    simp only [Proc.interpret]
    exact merge_eq_left _ _ _ _ h
  · intro h1 h2
    simp only [Proc.interpret, rolloutRoute]
    rw [merge_eq_right _ _ _ h1]
    exact merge_eq_left _ _ _ _ h2
  · intro h1 h2 h3
    simp only [Proc.interpret, rolloutRoute]
    rw [merge_eq_right _ _ _ h1, merge_eq_right _ _ _ h2]
    exact h3

/-- C4 witness: `c4_scope_rollout` applied to a concrete manifest with a
top-level `env` entry `E` and an empty proc/route `env`. -/
theorem c4_scope_rollout_witness :
    sampleManifest.routes "r" = some sampleRoute
    ∧ (decodeConfigRollout sampleRender sampleManifest).routes "r"
        = some sampleResolvedRoute
    ∧ sampleRoute.procs[0]? = some sampleProc
    ∧ sampleResolvedRoute.procs[0]? = some sampleResolvedProc
    ∧ (((sampleManifest.env "E").isSome →
          (sampleResolvedRoute.env "E").isSome)
      ∧ ((sampleResolvedRoute.env "E").isSome →
          (sampleResolvedProc.env "E").isSome)
      ∧ ((sampleManifest.var "E").isSome →
          (sampleResolvedRoute.var "E").isSome)
      ∧ ((sampleResolvedRoute.var "E").isSome →
          (sampleResolvedProc.var "E").isSome)
      ∧ (sampleProc.env "E" = some "me" →
          sampleResolvedProc.env "E"
            = some (sampleRender "me" sampleResolvedProc.var))
      ∧ (sampleProc.env "E" = none → sampleRoute.env "E" = some "me" →
          sampleResolvedProc.env "E"
            = some (sampleRender (sampleRender "me" sampleResolvedRoute.var)
                sampleResolvedProc.var))
      ∧ (sampleProc.env "E" = none → sampleRoute.env "E" = none →
          sampleManifest.env "E" = some "me" →
          sampleResolvedProc.env "E"
            = some (sampleRender
                (sampleRender (sampleRender "me" sampleManifest.var)
                  sampleResolvedRoute.var)
                sampleResolvedProc.var))
      ∧ (sampleProc.var "E" = some "me" →
          sampleResolvedProc.var "E" = some "me")
      ∧ (sampleProc.var "E" = none → sampleRoute.var "E" = some "me" →
          sampleResolvedProc.var "E" = some "me")
      ∧ (sampleProc.var "E" = none → sampleRoute.var "E" = none →
          sampleManifest.var "E" = some "me" →
          sampleResolvedProc.var "E" = some "me")) :=
  ⟨rfl, rfl, rfl, rfl,
    c4_scope_rollout sampleRender sampleManifest "r" sampleRoute
      sampleResolvedRoute 0 sampleProc sampleResolvedProc "E" "me"
      rfl rfl rfl rfl⟩

theorem findIdx_first {α : Type} (pred : α → Bool) :
    ∀ l : List α, ∀ i : Nat, ∀ a : α,
      l[i]? = some a → pred a = true →
      (∀ j q, j < i → l[j]? = some q → pred q = false) →
      l.findIdx pred = i := by
  intro l
  induction l with
  | nil =>
    intro i a ha _ _
    rw [List.getElem?_eq_none (by simp)] at ha
    cases ha
  | cons x xs ih =>
    intro i a ha hpa hbefore
    cases i with
    | zero =>
      rw [List.getElem?_cons_zero] at ha
      have hx : x = a := Option.some_inj.mp ha
      rw [List.findIdx_cons, hx, hpa]
      rfl
    | succ i =>
      have hx : pred x = false :=
        hbefore 0 x (Nat.succ_pos i) List.getElem?_cons_zero
      rw [List.findIdx_cons, hx]
      have := ih i a (by rwa [List.getElem?_cons_succ] at ha) hpa
        (fun j q hj hq =>
          hbefore (j + 1) q (Nat.succ_lt_succ hj)
            (by rwa [List.getElem?_cons_succ]))
      simp [this]

/-- C5 counterexample: a proc whose declared name is empty has run-time
name `"0"` (its index), yet the run command `op r 0` does not spawn it:
`executeRun` matches the declared names only, so it reports
`process not defined` instead of spawning the proc, refuting the claim
that name defaulting applies to proc selection. -/
theorem c5_counterexample :
    defaultName 0 unnamedProc = "0"
    ∧ (executeRun unnamedConfig "r" "0").1 = .error ("process not defined")
    ∧ unnamedConfig "r" = some unnamedRoute
    ∧ unnamedRoute.procs[0]? = some unnamedProc := by
  refine ⟨rfl, rfl, rfl, rfl⟩

/-- C5 (amended): for a run command with a route name and a nonempty proc
name, `executeRun` spawns exactly the route narrowed to the first proc
whose declared name equals the proc argument, leaving the caller's config
untouched; if no declared name matches, it returns `process not defined`
and spawns nothing.  Name defaulting (index as name) happens only in
`newRoute`, after selection, so procs with an empty declared name are not
selectable by their index. -/
theorem c5_selection_amended (config : String → Option Route)
    (routeArg procArg : String) (rt : Route) (i : Nat) (p : Proc)
    (hroute : routeArg ≠ "") (hproc : procArg ≠ "")
    (hc : config routeArg = some rt) :
    (rt.procs[i]? = some p → p.name = procArg →
      (∀ j q, j < i → rt.procs[j]? = some q → q.name ≠ procArg) →
      executeRun config routeArg procArg
        = (.ok (fun n =>
            if n = routeArg then some { rt with procs := [p] } else none),
           config))
    ∧ ((∀ q, q ∈ rt.procs → q.name ≠ procArg) →
      executeRun config routeArg procArg
        = (.error ("process not defined"), config)) := by
  constructor
  · intro hp hname hbefore
    have hidx : rt.procs.findIdx (fun q => q.name == procArg) = i :=
      findIdx_first _ rt.procs i p hp (by simp [hname])
        (fun j q hj hq => by simp [hbefore j q hj hq])
    have hlt : i < rt.procs.length := (List.getElem?_eq_some.mp hp).1
    have hget : rt.procs[i] = p := by
      have h2 := (List.getElem?_eq_some.mp hp).2
      simpa using h2
    simp only [executeRun, if_neg hroute, hc, if_neg hproc, hidx,
      dif_pos hlt, hget]
  · intro hnone
    have hidx : rt.procs.findIdx (fun q => q.name == procArg)
        = rt.procs.length :=
      List.findIdx_eq_length.mpr
        (fun q hq => by simp [hnone q hq])
    simp only [executeRun, if_neg hroute, hc, if_neg hproc, hidx,
      dif_neg (Nat.lt_irrefl _)]

/-- C5 witness: `c5_selection_amended` on a config whose route `r` holds
procs named `x` and `y`; selecting `y` spawns exactly that proc. -/
theorem c5_selection_amended_witness :
    ("r" : String) ≠ ""
    ∧ ("y" : String) ≠ ""
    ∧ namedConfig "r" = some namedRoute
    ∧ ((namedRoute.procs[1]? = some procY → procY.name = "y" →
        (∀ j q, j < 1 → namedRoute.procs[j]? = some q → q.name ≠ "y") →
        executeRun namedConfig "r" "y"
          = (.ok (fun n =>
              if n = "r" then some { namedRoute with procs := [procY] }
              else none),
             namedConfig))
      ∧ ((∀ q, q ∈ namedRoute.procs → q.name ≠ "y") →
        executeRun namedConfig "r" "y"
          = (.error ("process not defined"), namedConfig))) :=
  ⟨by decide, by decide, rfl,
    c5_selection_amended namedConfig "r" "y" namedRoute 1 procY
      (by decide) (by decide) rfl⟩

/-- C6: registering a route under a `(namespace, name)` pair already held
in the active registry fails with `already exists` and leaves the registry
unchanged (the returned state is the input state); registering a free pair
succeeds, stores the route there and changes no other entry; and
`route.run` on a failed registration returns the error immediately with no
proc started and the label untouched.  Together with the registry being a
map (one entry per key by construction), at most one active route exists
per pair at any instant. -/
theorem c6_registry_unique (reg : Registry) (nsp name nsp2 name2 : String)
    (id rid : Nat) (names : List String) (cB nF rF : Nat → Bool) :
    (activeGet reg nsp name = some rid →
      activeSet reg nsp name id = (reg, some ("already exists")))
    ∧ (activeGet reg nsp name = none →
        (activeSet reg nsp name id).2 = none
        ∧ activeGet (activeSet reg nsp name id).1 nsp name = some id)
    ∧ ((nsp2 ≠ nsp ∨ name2 ≠ name) →
        activeGet (activeSet reg nsp name id).1 nsp2 name2
          = activeGet reg nsp2 name2)
    ∧ routeRun true cB nF rF names
        = ("", .errored ("already exists"), []) := by
  refine ⟨?_, ?_, ?_, rfl⟩
  · intro h
    rcases hn : reg nsp with _ | nsm
    · simp [activeGet, hn] at h
    · simp only [activeGet, hn] at h
      simp [activeSet, hn, h]
  · intro h
    rcases hn : reg nsp with _ | nsm
    · simp [activeSet, activeGet, hn]
    · simp only [activeGet, hn] at h
      simp [activeSet, activeGet, hn, h]
  · intro hne
    by_cases h2 : nsp2 = nsp
    · subst h2
      have hname2 : name2 ≠ name := by
        rcases hne with h | h
        · exact absurd rfl h
        · exact h
      rcases hn : reg nsp2 with _ | nsm
      · simp [activeSet, activeGet, hn, hname2]
      · rcases ho : nsm name with _ | v
        · simp [activeSet, activeGet, hn, ho, hname2]
        · simp [activeSet, activeGet, hn, ho]
    · rcases hn : reg nsp with _ | nsm
      · simp [activeSet, activeGet, hn, h2]
      · rcases ho : nsm name with _ | v
        · simp [activeSet, activeGet, hn, ho, h2]
        · simp [activeSet, activeGet, hn, ho]

/-- C6 witness: `c6_registry_unique` applied to the empty registry. -/
theorem c6_registry_unique_witness :
    (activeGet (fun _ => none) "n" "a" = some 1 →
      activeSet (fun _ => none) "n" "a" 2
        = ((fun _ => none), some ("already exists")))
    ∧ (activeGet (fun _ => none) "n" "a" = none →
        (activeSet (fun _ => none) "n" "a" 2).2 = none
        ∧ activeGet (activeSet (fun _ => none) "n" "a" 2).1 "n" "a"
            = some 2)
    ∧ ((("n" : String) ≠ "n" ∨ ("b" : String) ≠ "a") →
        activeGet (activeSet (fun _ => none) "n" "a" 2).1 "n" "b"
          = activeGet (fun _ => none) "n" "b")
    ∧ routeRun true (fun _ => false) (fun _ => false) (fun _ => false) []
        = ("", .errored ("already exists"), []) :=
  c6_registry_unique (fun _ => none) "n" "a" "n" "b" 2 1 []
    (fun _ => false) (fun _ => false) (fun _ => false)

/-- C7: a write to the line-prefixing writer flushes exactly when the
write's last byte is a newline; the flushed bytes are the prefix followed
by everything accumulated since the previous flush plus the current write
(so the prefix appears once per flushed line), after which the buffer is
reset to the prefix; a write not ending in a newline emits nothing and is
buffered, preserving the buffer invariant.  (`pre` is the prefix, `p` the
bytes accumulated since the last flush.) -/
theorem c7_prefixer_flush (pre p w : List Char)
    (hbuf : (pre ++ p).getLast? ≠ some '\n') :
    (w.getLast? = some '\n' →
      prefixerWrite { buf := pre ++ p, n := pre.length } w
        = ({ buf := pre, n := pre.length }, pre ++ p ++ w))
    ∧ (w.getLast? ≠ some '\n' →
      prefixerWrite { buf := pre ++ p, n := pre.length } w
        = ({ buf := pre ++ p ++ w, n := pre.length }, []))
    ∧ (w.getLast? ≠ some '\n' → (pre ++ (p ++ w)).getLast? ≠ some '\n') := by
  have hor : ((pre ++ p) ++ w).getLast?
      = w.getLast?.or ((pre ++ p).getLast? ) := List.getLast?_append
  refine ⟨?_, ?_, ?_⟩
  · intro hw
    have hcond : ((pre ++ p) ++ w).getLast? = some '\n' := by
      rw [hor, hw]; rfl
    simp only [prefixerWrite, if_pos hcond]
    rw [List.append_assoc, List.take_left]
  · intro hw
    have hcond : ((pre ++ p) ++ w).getLast? ≠ some '\n' := by
      rw [hor]
      rcases hw2 : w.getLast? with _ | c
      · simpa using hbuf
      · rw [hw2] at hw
        simpa using hw
    simp only [prefixerWrite, if_neg hcond]
  · intro hw
    have hcond : ((pre ++ p) ++ w).getLast? ≠ some '\n' := by
      rw [hor]
      rcases hw2 : w.getLast? with _ | c
      · simpa using hbuf
      · rw [hw2] at hw
        simpa using hw
    rwa [← List.append_assoc]

/-- C7 witness: `c7_prefixer_flush` on the prefix `r|0: ` with pending
bytes `ab` and write `cd` (no flush) — and the flush conjunct on the same
state for a write `cd\n`. -/
theorem c7_prefixer_flush_witness :
    (("r|0: ".data ++ "ab".data).getLast? ≠ some '\n')
    ∧ (("cd\n".data.getLast? = some '\n' →
        prefixerWrite { buf := "r|0: ".data ++ "ab".data, n := "r|0: ".data.length }
            "cd\n".data
          = ({ buf := "r|0: ".data, n := "r|0: ".data.length },
             "r|0: ".data ++ "ab".data ++ "cd\n".data))
      ∧ ("cd\n".data.getLast? ≠ some '\n' →
        prefixerWrite { buf := "r|0: ".data ++ "ab".data, n := "r|0: ".data.length }
            "cd\n".data
          = ({ buf := "r|0: ".data ++ "ab".data ++ "cd\n".data,
               n := "r|0: ".data.length }, []))
      ∧ ("cd\n".data.getLast? ≠ some '\n' →
        ("r|0: ".data ++ ("ab".data ++ "cd\n".data)).getLast? ≠ some '\n')) :=
  ⟨by decide, c7_prefixer_flush "r|0: ".data "ab".data "cd\n".data (by decide)⟩

/-- C10: for a run command with an empty route argument, the
route-selection of `executeRun` deletes every non-default route from the
command's own `Config` map — which aliases the caller's map, so the shared
map afterwards retains exactly the default routes — and exactly the
remaining (default) routes are spawned. -/
theorem c10_default_filter (config : String → Option Route)
    (procArg n : String) :
    ((executeRun config "" procArg).2 n
        = match config n with
          | some rt => if rt.isDefault then some rt else none
          | none => none)
    ∧ (executeRun config "" procArg).1
        = .ok (executeRun config "" procArg).2 :=
  ⟨rfl, rfl⟩

theorem getIdLoop_scan (act : Nat → Bool) :
    ∀ fuel cur : Nat, cur < 256 →
      (∃ t, t < fuel ∧ act ((cur + t) % 256) = false) →
      ∃ s, s < fuel ∧ (∀ t, t < s → act ((cur + t) % 256) = true)
        ∧ act ((cur + s) % 256) = false
        ∧ getIdLoop act cur fuel = some ((cur + s) % 256) := by
  intro fuel
  induction fuel with
  | zero =>
    intro cur _ h
    obtain ⟨t, ht, _⟩ := h
    omega
  | succ fuel ih =>
    intro cur hcur h
    obtain ⟨t, ht, hfree⟩ := h
    by_cases hc : act cur = true
    · have hcur' : (cur + 1) % 256 < 256 := Nat.mod_lt _ (by omega)
      have ht0 : t ≠ 0 := by
        intro h0
        rw [h0] at hfree
        rw [show (cur + 0) % 256 = cur by omega] at hfree
        rw [hfree] at hc
        cases hc
      obtain ⟨t', rfl⟩ : ∃ t', t = t' + 1 := ⟨t - 1, by omega⟩
      have hshift : ∀ b : Nat, ((cur + 1) % 256 + b) % 256
          = (cur + (b + 1)) % 256 := by
        intro b; omega
      have ih' := ih ((cur + 1) % 256) hcur'
        ⟨t', by omega, by rw [hshift]; exact hfree⟩
      obtain ⟨s', hs', hall', hfree', hloop'⟩ := ih'
      refine ⟨s' + 1, by omega, ?_, ?_, ?_⟩
      · intro t2 ht2
        cases t2 with
        | zero =>
          rw [show (cur + 0) % 256 = cur by omega]
          exact hc
        | succ t2 =>
          have h3 := hall' t2 (by omega)
          rwa [hshift] at h3
      · rw [← hshift]
        exact hfree'
      · rw [show getIdLoop act cur (fuel + 1)
            = getIdLoop act ((cur + 1) % 256) fuel by
              simp [getIdLoop, hc]]
        rw [hloop', hshift]
    · have hc' : act cur = false := by
        cases h2 : act cur
        · rfl
        · exact absurd h2 hc
      refine ⟨0, by omega, fun t2 ht2 => absurd ht2 (by omega), ?_, ?_⟩
      · rw [show (cur + 0) % 256 = cur by omega]
        exact hc'
      · simp [getIdLoop, hc']
        omega

/-- C8 counterexample: with every id free and the cursor at 1, `getId`
returns 1, not the lowest free slot 0 — allocation scans from the
persistent cursor, not from the bottom. -/
theorem c8_counterexample :
    getIdLoop (fun _ => false) 1 256 = some 1
    ∧ (fun _ => false : Nat → Bool) 0 = false
    ∧ (1 : Nat) ≠ 0 :=
  ⟨rfl, rfl, by decide⟩

/-- C8 (amended): when some id in 0–255 is free, `getId` terminates and
returns the first free slot at or after the cursor, scanning upward with
wraparound modulo 256 (every id strictly between the cursor and the result
is active), and marks it active; `deleteId` frees the slot, after which an
allocation reaching it returns it again. -/
theorem c8_id_allocation_amended (act : Nat → Bool) (cur id : Nat)
    (hcur : cur < 256) (hfree : ∃ k, k < 256 ∧ act k = false) :
    (∃ s, s < 256
      ∧ (∀ t, t < s → act ((cur + t) % 256) = true)
      ∧ act ((cur + s) % 256) = false
      ∧ getIdLoop act cur 256 = some ((cur + s) % 256)
      ∧ getId act cur = some ((cur + s) % 256,
          fun k => if k = (cur + s) % 256 then true else act k))
    ∧ deleteId act id id = false
    ∧ getIdLoop (deleteId act id) id 256 = some id := by
  refine ⟨?_, by simp [deleteId], ?_⟩
  · obtain ⟨k, hk, hkfree⟩ := hfree
    have hexists : ∃ t, t < 256 ∧ act ((cur + t) % 256) = false := by
      refine ⟨(k + 256 - cur) % 256, by omega, ?_⟩
      rw [show (cur + (k + 256 - cur) % 256) % 256 = k by omega]
      exact hkfree
    obtain ⟨s, hs, hall, hfr, hloop⟩ := getIdLoop_scan act 256 cur hcur hexists
    refine ⟨s, hs, hall, hfr, hloop, ?_⟩
    simp [getId, hloop]
  · have hid : deleteId act id id = false := by simp [deleteId]
    cases h256 : (256 : Nat) with
    | zero => cases h256
    | succ n =>
      simp [getIdLoop, hid]

/-- C8 witness: `c8_id_allocation_amended` with only id 3 active and the
cursor at 3. -/
theorem c8_id_allocation_amended_witness :
    (∃ s, s < 256
      ∧ (∀ t, t < s → (fun k => decide (k = 3)) ((3 + t) % 256) = true)
      ∧ (fun k => decide (k = 3)) ((3 + s) % 256) = false
      ∧ getIdLoop (fun k => decide (k = 3)) 3 256 = some ((3 + s) % 256)
      ∧ getId (fun k => decide (k = 3)) 3 = some ((3 + s) % 256,
          fun k => if k = (3 + s) % 256 then true
            else (fun k => decide (k = 3)) k))
    ∧ deleteId (fun k => decide (k = 3)) 7 7 = false
    ∧ getIdLoop (deleteId (fun k => decide (k = 3)) 7) 7 256 = some 7 :=
  c8_id_allocation_amended (fun k => decide (k = 3)) 3 7 (by decide)
    ⟨0, by decide, rfl⟩

end Op
